import Mathlib

/-!
Verification of `src/future_posts/remove-trailing-zeros.py`.

The file defines two Python functions that strip trailing decimal zeros from
an integer, and benchmarks them with IPython `%timeit` calls:

    def remove_zeros_strip(n):
        return int(str(n).rstrip('0'))

    def remove_zeros_while(n):
        while n % 10 == 0:
            n //= 10
        return n

Python integers are unbounded, so they embed as `ℤ`.  Python `//` is floor
division (`Int.fdiv`) and `%` is the matching floor-style remainder
(`Int.fmod`).  `int(...)` can raise `ValueError` on an empty string and the
while loop can hang at `n = 0`, so both functions return `Option ℤ`, with
`none` marking the error in the string variant and `none` marking fuel
exhaustion of the loop (which is reached only in the nonterminating case).
-/

namespace RemoveTrailingZeros

/-- Embedding of `remove_zeros_strip(n) = int(str(n).rstrip('0'))`.
The decimal rendering `str(n)` consists of an optional sign and the digits of
`|n|`, most significant first; `Nat.digits 10 n.natAbs` lists those digits
least significant first, so the trailing `'0'` characters of `str(n)` are
exactly the leading `0` entries of the digit list, and `rstrip('0')` drops
them.  `int(s)` parses the remaining digit string back (`Nat.ofDigits 10`),
reattaching the sign, and raises `ValueError` (here: `none`) when no digit
characters remain.  The two renderings of zero (`str(0) = "0"` versus
`Nat.digits 10 0 = []`) differ only in a `'0'` character that the strip
removes anyway, so the composite function is unaffected. -/
def remove_zeros_strip (n : ℤ) : Option ℤ :=
  let ds := (Nat.digits 10 n.natAbs).dropWhile (fun d => d == 0)
  if ds.isEmpty then none
  else some ((if n < 0 then -1 else 1) * (Nat.ofDigits 10 ds : ℤ))

/-- Fuel-indexed unfolding of the loop `while n % 10 == 0: n //= 10`,
followed by `return n`.  Each recursive call is one loop iteration; `none`
means the fuel ran out before the loop exited. -/
def remove_zeros_while_loop : ℕ → ℤ → Option ℤ
  | 0, _ => none
  | fuel + 1, n =>
    if n.fmod 10 = 0 then remove_zeros_while_loop fuel (n.fdiv 10) else some n

/-- Embedding of `remove_zeros_while(n)`: run the loop with fuel
`|n| + 1`, which is proved sufficient for every `n ≠ 0`
(`remove_zeros_while_loop` is shown to give the same answer for every larger
fuel, so the choice of fuel is immaterial), while for `n = 0` the loop is
proved to diverge for every fuel. -/
def remove_zeros_while (n : ℤ) : Option ℤ :=
  remove_zeros_while_loop (n.natAbs + 1) n

/-- The benchmark harness at the bottom of the file: each
`get_ipython().run_line_magic('timeit', '<fn>(<lit>)')` line becomes the pair
of the function's name and its literal argument, in source order. -/
def benchmark_calls : List (String × ℤ) :=
  [("remove_zeros_strip", 100), ("remove_zeros_while", 100),
   ("remove_zeros_while", 1000), ("remove_zeros_strip", 1000),
   ("remove_zeros_strip", 1000000), ("remove_zeros_while", 1000000),
   ("remove_zeros_while", 1000000000), ("remove_zeros_strip", 1000000000)]

/-! ### Helper lemmas -/

/-- If `r` is not a multiple of ten, the loop body exits at once. -/
lemma loop_exit (r : ℤ) (hr : ¬ (10 : ℤ) ∣ r) (f : ℕ) :
    remove_zeros_while_loop (f + 1) r = some r := by
  have : r.fmod 10 ≠ 0 := by
    rw [Int.fmod_eq_emod r (by norm_num)]
    exact fun h => hr (Int.dvd_of_emod_eq_zero h)
  simp [remove_zeros_while_loop, this]

/-- Running the loop on `r * 10 ^ k` with fuel more than `k` strips the `k`
factors of ten and returns `r`, provided `r` is not a multiple of ten. -/
lemma loop_pow (r : ℤ) (hr : ¬ (10 : ℤ) ∣ r) :
    ∀ (k f : ℕ), k < f → remove_zeros_while_loop f (r * 10 ^ k) = some r := by
  intro k
  induction k with
  | zero =>
    intro f hf
    cases f with
    | zero => exact absurd hf (by omega)
    | succ f' => simpa using loop_exit r hr f'
  | succ k ih =>
    intro f hf
    cases f with
    | zero => exact absurd hf (by omega)
    | succ f' =>
      have hdvd : (10 : ℤ) ∣ r * 10 ^ (k + 1) := ⟨r * 10 ^ k, by ring⟩
      have hmod : (r * 10 ^ (k + 1)).fmod 10 = 0 := by
        rw [Int.fmod_eq_emod _ (by norm_num)]
        exact Int.emod_eq_zero_of_dvd hdvd
      have hdiv : (r * 10 ^ (k + 1)).fdiv 10 = r * 10 ^ k := by
        rw [Int.fdiv_eq_ediv _ (by norm_num)]
        have hsplit : r * 10 ^ (k + 1) = (r * 10 ^ k) * 10 := by ring
        rw [hsplit, Int.mul_ediv_cancel _ (by norm_num)]
      rw [remove_zeros_while_loop, if_pos hmod, hdiv]
      exact ih f' (by omega)

/-- Every nonzero integer factors as `r * 10 ^ k` with `r` not a multiple of
ten (strip all factors of ten from `n`). -/
lemma exists_decomp (n : ℤ) (hn : n ≠ 0) :
    ∃ r k, r * 10 ^ k = n ∧ ¬ (10 : ℤ) ∣ r := by
  obtain ⟨m, hm⟩ : ∃ m : ℕ, m = n.natAbs := ⟨n.natAbs, rfl⟩
  induction m using Nat.strong_induction_on generalizing n with
  | _ m ih =>
    by_cases hdvd : (10 : ℤ) ∣ n
    · obtain ⟨c, rfl⟩ := hdvd
      have hc : c ≠ 0 := by rintro rfl; simp at hn
      have hlt : c.natAbs < m := by
        have h1 : c.natAbs < (10 * c).natAbs := by
          rw [Int.natAbs_mul]
          have h10 : (10 : ℤ).natAbs = 10 := rfl
          have hpos : 0 < c.natAbs := Int.natAbs_pos.mpr hc
          rw [h10]
          omega
        omega
      obtain ⟨r, k, hrk, hr⟩ := ih c.natAbs hlt c hc rfl
      exact ⟨r, k + 1, by rw [← hrk]; ring, hr⟩
    · exact ⟨n, 0, by ring, hdvd⟩

/-- The exponent of any ten-free factorisation of `n` is at most `|n|`,
since `k < 10 ^ k ≤ |r| * 10 ^ k = |n|`; hence the fuel `|n| + 1` built into
`remove_zeros_while` covers all `k + 1` loop iterations. -/
lemma decomp_fuel_bound (n r : ℤ) (k : ℕ) (hrk : r * 10 ^ k = n)
    (hr0 : r ≠ 0) : k < n.natAbs + 1 := by
  have h1 : k < 10 ^ k := Nat.lt_pow_self (by norm_num) k
  have h2 : 10 ^ k ≤ r.natAbs * 10 ^ k := by
    have hpos : 1 ≤ r.natAbs := Int.natAbs_pos.mpr hr0
    calc 10 ^ k = 1 * 10 ^ k := (Nat.one_mul _).symm
      _ ≤ r.natAbs * 10 ^ k := Nat.mul_le_mul_right _ hpos
  have h3 : r.natAbs * 10 ^ k = n.natAbs := by
    rw [← hrk, Int.natAbs_mul, Int.natAbs_pow]
    norm_num
  omega

/-- With enough fuel the loop returns the ten-free part of its nonzero
argument; in particular the fuel `|n| + 1` used by `remove_zeros_while`
suffices. -/
lemma while_eq_of (n r : ℤ) (k : ℕ) (hrk : r * 10 ^ k = n)
    (hr : ¬ (10 : ℤ) ∣ r) : remove_zeros_while n = some r := by
  have hr0 : r ≠ 0 := by rintro rfl; exact hr ⟨0, by ring⟩
  have hk : k < n.natAbs + 1 := decomp_fuel_bound n r k hrk hr0
  rw [remove_zeros_while]
  rw [← hrk] at hk ⊢
  exact loop_pow r hr k _ hk

/-- Dropping the leading zeros of the little-endian digit list of a positive
`m` leaves a nonempty list whose value is the ten-free part of `m`: it
reconstructs `m` after multiplying back the dropped powers of ten, and is not
itself a multiple of ten. -/
lemma digits_strip_spec (m : ℕ) (hm : 0 < m) :
    (Nat.digits 10 m).dropWhile (fun d => d == 0) ≠ [] ∧
    ∃ k, Nat.ofDigits 10 ((Nat.digits 10 m).dropWhile (fun d => d == 0)) * 10 ^ k = m ∧
      ¬ 10 ∣ Nat.ofDigits 10 ((Nat.digits 10 m).dropWhile (fun d => d == 0)) := by
  induction m using Nat.strong_induction_on with
  | _ m ih =>
    by_cases h10 : m % 10 = 0
    · have hge : 10 ≤ m := by omega
      have hq : 0 < m / 10 := by omega
      have hlt : m / 10 < m := by omega
      have hdig : Nat.digits 10 m = 0 :: Nat.digits 10 (m / 10) := by
        rw [Nat.digits_def' (by norm_num : (1 : ℕ) < 10) hm, h10]
      have hdw : (Nat.digits 10 m).dropWhile (fun d => d == 0) =
          (Nat.digits 10 (m / 10)).dropWhile (fun d => d == 0) := by
        rw [hdig]
        simp [List.dropWhile_cons]
      obtain ⟨hne, k, hk, hnd⟩ := ih (m / 10) hlt hq
      rw [hdw]
      refine ⟨hne, k + 1, ?_, hnd⟩
      have hmul : m / 10 * 10 = m := Nat.div_mul_cancel (Nat.dvd_of_mod_eq_zero h10)
      calc Nat.ofDigits 10 ((Nat.digits 10 (m / 10)).dropWhile (fun d => d == 0)) * 10 ^ (k + 1)
          = Nat.ofDigits 10 ((Nat.digits 10 (m / 10)).dropWhile (fun d => d == 0)) * 10 ^ k * 10 := by
            ring
        _ = m / 10 * 10 := by rw [hk]
        _ = m := hmul
    · have hdig : Nat.digits 10 m = m % 10 :: Nat.digits 10 (m / 10) :=
        Nat.digits_def' (by norm_num : (1 : ℕ) < 10) hm
      have hhead : ((m % 10 : ℕ) == 0) = false := by
        simpa using h10
      have hdw : (Nat.digits 10 m).dropWhile (fun d => d == 0) = Nat.digits 10 m := by
        rw [hdig, List.dropWhile_cons, hhead]
        simp
      rw [hdw, Nat.ofDigits_digits]
      exact ⟨Nat.digits_ne_nil_iff_ne_zero.mpr (by omega), 0, by ring, by
        intro hdvd
        omega⟩

/-- The string variant on a nonzero argument returns the ten-free part of its
argument: the same sign as `n`, carrying all of the decimal digits of `n` up
to the stripped trailing zeros. -/
lemma strip_spec (n : ℤ) (hn : n ≠ 0) :
    ∃ r k, remove_zeros_strip n = some r ∧ r * 10 ^ k = n ∧ ¬ (10 : ℤ) ∣ r := by
  have hm : 0 < n.natAbs := Int.natAbs_pos.mpr hn
  obtain ⟨hne, k, hk, hnd⟩ := digits_strip_spec n.natAbs hm
  obtain ⟨a, t, hds⟩ := List.exists_cons_of_ne_nil hne
  have hempty : ((Nat.digits 10 n.natAbs).dropWhile (fun d => d == 0)).isEmpty = false := by
    rw [hds]; rfl
  have hcast : ((Nat.ofDigits 10 ((Nat.digits 10 n.natAbs).dropWhile (fun d => d == 0)) : ℕ) : ℤ)
      = Nat.ofDigits (10 : ℤ) ((Nat.digits 10 n.natAbs).dropWhile (fun d => d == 0)) :=
    Nat.coe_int_ofDigits 10 _
  have hdvdZ : ¬ (10 : ℤ) ∣ Nat.ofDigits (10 : ℤ) ((Nat.digits 10 n.natAbs).dropWhile (fun d => d == 0)) := by
    rw [← hcast]
    intro hdvd
    exact hnd (by exact_mod_cast hdvd)
  rcases lt_trichotomy n 0 with hneg | rfl | hpos
  · refine ⟨-(Nat.ofDigits (10 : ℤ) ((Nat.digits 10 n.natAbs).dropWhile (fun d => d == 0))), k, ?_, ?_, ?_⟩
    · simp only [remove_zeros_strip, hempty, Bool.false_eq_true, if_false, if_pos hneg]
      congr 1
      ring
    · have habs : ((n.natAbs : ℕ) : ℤ) = -n := Int.ofNat_natAbs_of_nonpos hneg.le
      have : ((Nat.ofDigits 10 ((Nat.digits 10 n.natAbs).dropWhile (fun d => d == 0)) * 10 ^ k : ℕ) : ℤ) = -n := by
        rw [hk]; exact habs
      push_cast [hcast] at this
      linarith [this]
    · rw [dvd_neg]; exact hdvdZ
  · simp at hn
  · refine ⟨Nat.ofDigits (10 : ℤ) ((Nat.digits 10 n.natAbs).dropWhile (fun d => d == 0)), k, ?_, ?_, hdvdZ⟩
    · simp only [remove_zeros_strip, hempty, Bool.false_eq_true, if_false,
        if_neg (not_lt.mpr hpos.le), one_mul]
    · have habs : ((n.natAbs : ℕ) : ℤ) = n := Int.natAbs_of_nonneg hpos.le
      have : ((Nat.ofDigits 10 ((Nat.digits 10 n.natAbs).dropWhile (fun d => d == 0)) * 10 ^ k : ℕ) : ℤ) = n := by
        rw [hk]; exact habs
      push_cast [hcast] at this
      linarith [this]

/-- On every nonzero input the two implementations agree. -/
lemma strip_eq_while (n : ℤ) (hn : n ≠ 0) :
    remove_zeros_strip n = remove_zeros_while n := by
  obtain ⟨r, k, hs, hk, hd⟩ := strip_spec n hn
  rw [hs, while_eq_of n r k hk hd]

/-- A value that is not a multiple of ten is a fixed point of the string
variant. -/
lemma strip_fixed (r : ℤ) (hd : ¬ (10 : ℤ) ∣ r) :
    remove_zeros_strip r = some r := by
  have hr0 : r ≠ 0 := by rintro rfl; exact hd ⟨0, by ring⟩
  obtain ⟨r', k', hs, hk, _⟩ := strip_spec r hr0
  cases k' with
  | zero =>
    rw [pow_zero, mul_one] at hk
    rw [hs, hk]
  | succ k =>
    exact absurd ⟨r' * 10 ^ k, by rw [← hk]; ring⟩ hd

/-! ### Claims -/

/-- C3: at `n = 0` the string variant hits the `ValueError`: every digit
character of `str(0)` is stripped, leaving nothing for `int` to parse, so
`remove_zeros_strip 0` is the error value `none`. -/
theorem strip_zero_errors : remove_zeros_strip 0 = none := by
  simp [remove_zeros_strip]

/-- C4: at `n = 0` the while loop never terminates: `0 % 10 = 0` and
`0 // 10 = 0` on every iteration, so the loop runs out of any amount of
fuel without returning. -/
theorem while_zero_diverges :
    ∀ fuel : ℕ, remove_zeros_while_loop fuel 0 = none := by
  intro fuel
  induction fuel with
  | zero => rfl
  | succ f ih =>
    have hmod : (0 : ℤ).fmod 10 = 0 := by decide
    have hdiv : (0 : ℤ).fdiv 10 = 0 := by decide
    rw [remove_zeros_while_loop, if_pos hmod, hdiv]
    exact ih

/-- C1: for every positive integer `n`, the two implementations return the
same integer (both succeed, with equal values). -/
theorem strip_while_agree_pos (n : ℤ) (hn : 0 < n) :
    remove_zeros_strip n = remove_zeros_while n ∧
    ∃ r, remove_zeros_while n = some r := by
  obtain ⟨r, k, hs, hk, hd⟩ := strip_spec n hn.ne'
  exact ⟨strip_eq_while n hn.ne', r, while_eq_of n r k hk hd⟩

/-- Witness for C1 at `n = 100`. -/
theorem strip_while_agree_pos_witness :
    remove_zeros_strip 100 = remove_zeros_while 100 ∧
    ∃ r, remove_zeros_while 100 = some r :=
  strip_while_agree_pos 100 (by norm_num)

/-- C2: for every positive `n`, `remove_zeros_while` returns `n` with its
trailing decimal zeros removed: some power of ten times the result gives
back `n`, and the result's last decimal digit is nonzero. -/
theorem while_strips_trailing_zeros (n : ℤ) (hn : 0 < n) :
    ∃ r k, remove_zeros_while n = some r ∧ r * 10 ^ k = n ∧ r % 10 ≠ 0 := by
  obtain ⟨r, k, hk, hd⟩ := exists_decomp n hn.ne'
  exact ⟨r, k, while_eq_of n r k hk hd,
    hk, fun h => hd (Int.dvd_of_emod_eq_zero h)⟩

/-- Witness for C2 at `n = 120`. -/
theorem while_strips_trailing_zeros_witness :
    ∃ r k, remove_zeros_while 120 = some r ∧ r * 10 ^ k = 120 ∧ r % 10 ≠ 0 :=
  while_strips_trailing_zeros 120 (by norm_num)

/-- C5: for every nonzero `n` the loop terminates and returns a value, and
the returned value is the same for every sufficient amount of fuel, so the
answer does not depend on the fuel bound baked into `remove_zeros_while`. -/
theorem while_terminates_nonzero (n : ℤ) (hn : n ≠ 0) :
    ∃ r, remove_zeros_while n = some r ∧
      ∀ f, n.natAbs < f → remove_zeros_while_loop f n = some r := by
  obtain ⟨r, k, hk, hd⟩ := exists_decomp n hn
  have hr0 : r ≠ 0 := by rintro rfl; exact hd ⟨0, by ring⟩
  have hb := decomp_fuel_bound n r k hk hr0
  refine ⟨r, while_eq_of n r k hk hd, fun f hf => ?_⟩
  rw [← hk]
  exact loop_pow r hd k f (by omega)

/-- Witness for C5 at `n = 7`. -/
theorem while_terminates_nonzero_witness :
    ∃ r, remove_zeros_while 7 = some r ∧
      ∀ f, (7 : ℤ).natAbs < f → remove_zeros_while_loop f 7 = some r :=
  while_terminates_nonzero 7 (by norm_num)

/-- C6: both strippers are idempotent on positive integers: each maps `n` to
the same value `r`, and each maps `r` back to `r`, since `r`'s last digit is
nonzero and a second application strips nothing. -/
theorem idempotent_pos (n : ℤ) (hn : 0 < n) :
    ∃ r, remove_zeros_strip n = some r ∧ remove_zeros_while n = some r ∧
      remove_zeros_strip r = some r ∧ remove_zeros_while r = some r := by
  obtain ⟨r, k, hs, hk, hd⟩ := strip_spec n hn.ne'
  exact ⟨r, hs, while_eq_of n r k hk hd, strip_fixed r hd,
    while_eq_of r r 0 (by ring) hd⟩

/-- Witness for C6 at `n = 100`. -/
theorem idempotent_pos_witness :
    ∃ r, remove_zeros_strip 100 = some r ∧ remove_zeros_while 100 = some r ∧
      remove_zeros_strip r = some r ∧ remove_zeros_while r = some r :=
  idempotent_pos 100 (by norm_num)

/-- C7: the concrete cases of the spec hold for both implementations:
`f(100) = f(1000) = f(1000000) = f(1000000000) = 1`, `f(120) = 12` and
`f(7) = 7`. -/
theorem concrete_cases :
    remove_zeros_strip 100 = some 1 ∧ remove_zeros_while 100 = some 1 ∧
    remove_zeros_strip 1000 = some 1 ∧ remove_zeros_while 1000 = some 1 ∧
    remove_zeros_strip 1000000 = some 1 ∧ remove_zeros_while 1000000 = some 1 ∧
    remove_zeros_strip 1000000000 = some 1 ∧ remove_zeros_while 1000000000 = some 1 ∧
    remove_zeros_strip 120 = some 12 ∧ remove_zeros_while 120 = some 12 ∧
    remove_zeros_strip 7 = some 7 ∧ remove_zeros_while 7 = some 7 := by
  have h1 : ¬ (10 : ℤ) ∣ 1 := by norm_num
  have h12 : ¬ (10 : ℤ) ∣ 12 := by norm_num
  have h7 : ¬ (10 : ℤ) ∣ 7 := by norm_num
  have w100 : remove_zeros_while (100 : ℤ) = some 1 :=
    while_eq_of 100 1 2 (by norm_num) h1
  have w1000 : remove_zeros_while (1000 : ℤ) = some 1 :=
    while_eq_of 1000 1 3 (by norm_num) h1
  have w1000000 : remove_zeros_while (1000000 : ℤ) = some 1 :=
    while_eq_of 1000000 1 6 (by norm_num) h1
  have w1000000000 : remove_zeros_while (1000000000 : ℤ) = some 1 :=
    while_eq_of 1000000000 1 9 (by norm_num) h1
  have w120 : remove_zeros_while (120 : ℤ) = some 12 :=
    while_eq_of 120 12 1 (by norm_num) h12
  have w7 : remove_zeros_while (7 : ℤ) = some 7 :=
    while_eq_of 7 7 0 (by norm_num) h7
  refine ⟨?_, w100, ?_, w1000, ?_, w1000000, ?_, w1000000000, ?_, w120, ?_, w7⟩
  · rw [strip_eq_while 100 (by norm_num), w100]
  · rw [strip_eq_while 1000 (by norm_num), w1000]
  · rw [strip_eq_while 1000000 (by norm_num), w1000000]
  · rw [strip_eq_while 1000000000 (by norm_num), w1000000000]
  · rw [strip_eq_while 120 (by norm_num), w120]
  · rw [strip_eq_while 7 (by norm_num), w7]

/-- C8 counterexample: the harness calls the functions with the literal
input `1000000`, a fourth magnitude that is not among the three the claim
lists (100, 1000, 1000000000). -/
theorem benchmark_has_fourth_magnitude :
    ((1000000 : ℤ) ∈ benchmark_calls.map Prod.snd) ∧
    (1000000 : ℤ) ∉ ([100, 1000, 1000000000] : List ℤ) := by
  decide

/-- C8 amended: the harness measures exactly four input magnitudes — 100,
1,000, 1,000,000 and 1,000,000,000 — calling each function with only those
literal inputs, and calling both functions at every one of them. -/
theorem benchmark_four_magnitudes :
    (benchmark_calls.all fun p =>
      p.2 == 100 || p.2 == 1000 || p.2 == 1000000 || p.2 == 1000000000) = true ∧
    (([100, 1000, 1000000, 1000000000] : List ℤ).all fun v =>
      benchmark_calls.contains ("remove_zeros_strip", v) &&
      benchmark_calls.contains ("remove_zeros_while", v)) = true := by
  decide

/-- C9: for every positive `n` the result of `remove_zeros_while` divides
`n` exactly by a power of ten, so it is never larger than `n`. -/
theorem while_divides_by_pow_ten (n : ℤ) (hn : 0 < n) :
    ∃ r k, remove_zeros_while n = some r ∧ n = r * 10 ^ k ∧ r ≤ n := by
  obtain ⟨r, k, hk, hd⟩ := exists_decomp n hn.ne'
  have hpow : (0 : ℤ) < 10 ^ k := pow_pos (by norm_num) k
  have hr : 0 < r := by
    by_contra h
    push_neg at h
    nlinarith
  have hle : r ≤ n := by nlinarith
  exact ⟨r, k, while_eq_of n r k hk hd, hk.symm, hle⟩

/-- Witness for C9 at `n = 120`. -/
theorem while_divides_by_pow_ten_witness :
    ∃ r k, remove_zeros_while 120 = some r ∧ (120 : ℤ) = r * 10 ^ k ∧ r ≤ 120 :=
  while_divides_by_pow_ten 120 (by norm_num)

/-- C10: for every negative `n` both implementations terminate and agree,
returning `n` with its trailing decimal zeros removed and the sign
preserved. -/
theorem strip_while_agree_neg (n : ℤ) (hn : n < 0) :
    remove_zeros_strip n = remove_zeros_while n ∧
    ∃ r k, remove_zeros_while n = some r ∧ r * 10 ^ k = n ∧
      ¬ (10 : ℤ) ∣ r ∧ r < 0 := by
  obtain ⟨r, k, hs, hk, hd⟩ := strip_spec n hn.ne
  have hpow : (0 : ℤ) < 10 ^ k := pow_pos (by norm_num) k
  have hr : r < 0 := by
    by_contra h
    push_neg at h
    nlinarith
  exact ⟨strip_eq_while n hn.ne, r, k, while_eq_of n r k hk hd, hk, hd, hr⟩

/-- Witness for C10 at `n = -100`. -/
theorem strip_while_agree_neg_witness :
    remove_zeros_strip (-100) = remove_zeros_while (-100) ∧
    ∃ r k, remove_zeros_while (-100) = some r ∧ r * 10 ^ k = (-100 : ℤ) ∧
      ¬ (10 : ℤ) ∣ r ∧ r < 0 :=
  strip_while_agree_neg (-100) (by norm_num)

end RemoveTrailingZeros
